import Mathlib

/-!
Verification development for the miriam-core utility tools.

The definitions below are shallow embeddings of the TypeScript source:
pure functions become Lean functions, JSONL files become lists of lines
or lists of records, platform primitives (JSON.parse / JSON.stringify)
become explicit function parameters, and a thrown JS exception becomes
an `Except.error` value while a returned structured result stays in the
success channel.  JavaScript string operations (`split`, `trim`,
`includes`, `endsWith`) are modelled by executable character-list
functions so that concrete runs reduce by `decide`.
-/

namespace Miriam

/-! ## JavaScript string primitives -/

/-- Split a character list at every occurrence of `sep`; models
`String.prototype.split` with a one-character separator (always returns
at least one piece, and `"".split(sep)` is `[""]`). -/
def splitOnChar (sep : Char) : List Char → List (List Char)
  | [] => [[]]
  | c :: cs =>
    match splitOnChar sep cs with
    | [] => [[]]
    | h :: t => if c = sep then [] :: h :: t else (c :: h) :: t

/-- Split a string at every occurrence of the character `sep`. -/
def jsSplit (sep : Char) (s : String) : List String :=
  (splitOnChar sep s.data).map String.mk

/-- Boolean list-prefix test (structural, so the kernel can evaluate
it). -/
def listIsPrefix : List Char → List Char → Bool
  | [], _ => true
  | _ :: _, [] => false
  | a :: as, b :: bs => a = b && listIsPrefix as bs

/-- Boolean list-suffix test. -/
def listIsSuffix (l₁ l₂ : List Char) : Bool :=
  listIsPrefix l₁.reverse l₂.reverse

/-- Substring containment on character lists; models
`String.prototype.includes`. -/
def charsIncludes (hay sub : List Char) : Bool :=
  (List.range (hay.length + 1)).any (fun i => listIsPrefix sub (hay.drop i))

/-- Models `s.includes(sub)`. -/
def jsIncludes (s sub : String) : Bool :=
  charsIncludes s.data sub.data

/-- Models `s.endsWith(suf)`. -/
def jsEndsWith (s suf : String) : Bool :=
  listIsSuffix suf.data s.data

/-- Remove leading and trailing whitespace; models
`String.prototype.trim` (ASCII whitespace suffices for the characters
appearing here). -/
def trimChars (l : List Char) : List Char :=
  ((l.dropWhile Char.isWhitespace).reverse.dropWhile Char.isWhitespace).reverse

/-- Models `s.trim()`. -/
def jsTrim (s : String) : String :=
  String.mk (trimChars s.data)

/-- Truthiness of `line.trim()` / positivity of `line.trim().length`:
the line has some non-whitespace character. -/
def jsTrimNonempty (s : String) : Bool :=
  s.data.any (fun c => !c.isWhitespace)

/-- Join a list of strings with newline separators; models
`Array.prototype.join("\n")`. -/
def joinLinesNl : List String → String
  | [] => ""
  | [l] => l
  | l :: l2 :: ls => l ++ "\n" ++ joinLinesNl (l2 :: ls)

/-! ## Access levels (access-level-bootstrap hook, unnamed/part_001) -/

/-- Access level union type from part_001 lines 12-13.  The TypeScript
value `"private"` is spelled `private_` because `private` is a Lean
keyword. -/
inductive AccessLevel where
  | public
  | household
  | trusted
  | family
  | private_
deriving DecidableEq, Repr, Fintype

/-- Hierarchy array `ACCESS_LEVELS` (higher index = more access),
part_001 line 12. -/
def ACCESS_LEVELS : List AccessLevel :=
  [.public, .household, .trusted, .family, .private_]

/-- String form of an access level, used where the TS code interpolates
the level into a path (`memory/` followed by the level name). -/
def AccessLevel.name : AccessLevel → String
  | .public => "public"
  | .household => "household"
  | .trusted => "trusted"
  | .family => "family"
  | .private_ => "private"

/-- Static user map `USER_ACCESS_MAP` (Telegram id to access level),
part_001 lines 17-20. -/
def USER_ACCESS_MAP : List (String × AccessLevel) :=
  [("192802611", .private_)]

/-- Lookup `USER_ACCESS_MAP[id]`: the binding whose key equals `id`, if
any. -/
def userAccessLookup (id : String) : Option AccessLevel :=
  (USER_ACCESS_MAP.find? (fun kv => kv.1 = id)).map (·.2)

/-- Array index of a level in `ACCESS_LEVELS` (`indexOf`); every level
occurs, so the index is always meaningful. -/
def levelIndex (l : AccessLevel) : Nat :=
  ACCESS_LEVELS.findIdx (fun x => x = l)

/-- Type segment `parts[3]` of a session key. -/
def typeSeg (sessionKey : String) : String :=
  (jsSplit ':' sessionKey).getD 3 ""

/-- Id segment `parts[4]` of a session key.  TS destructuring yields
`undefined` when the segment is absent; both `undefined` and the empty
string are falsy in the guard `id && USER_ACCESS_MAP[id]`, so modelling
the missing segment as `""` preserves behaviour. -/
def idSeg (sessionKey : String) : String :=
  (jsSplit ':' sessionKey).getD 4 ""

/-- Derive access level from session key, part_001 lines 107-138.
Priority: main session, malformed key, known dm user, group, unknown
dm, conservative default. -/
def deriveAccessLevel (sessionKey : String) : AccessLevel :=
  if sessionKey = "agent:main:main" then
    .private_
  else
    let parts := jsSplit ':' sessionKey
    if parts.length < 4 then
      .public
    else
      let ty := parts.getD 3 ""
      let id := parts.getD 4 ""
      match (if ty = "dm" ∧ id ≠ "" then userAccessLookup id else none) with
      | some lvl => lvl
      | none =>
          if ty = "group" then .trusted
          else if ty = "dm" then .public
          else .public

/-- Check whether `currentLevel` may access content at `targetLevel`,
part_001 lines 143-147: compares `indexOf` ranks. -/
def canAccess (currentLevel targetLevel : AccessLevel) : Bool :=
  levelIndex targetLevel ≤ levelIndex currentLevel

/-- Characterisation of the static user lookup: it succeeds exactly on
the one configured Telegram id, yielding `private`. -/
theorem userAccessLookup_eq_some {id : String} {lvl : AccessLevel} :
    userAccessLookup id = some lvl ↔ id = "192802611" ∧ lvl = .private_ := by
  unfold userAccessLookup USER_ACCESS_MAP
  by_cases h : id = "192802611"
  · simp [List.find?, h, eq_comm]
  · have h' : ¬("192802611" = id) := fun e => h e.symm
    simp [List.find?, h, h']

/-- Unfolding of `deriveAccessLevel` on a well-formed (≥ 4 segment)
non-main key. -/
theorem deriveAccessLevel_long (s : String) (hm : s ≠ "agent:main:main")
    (h4 : ¬(jsSplit ':' s).length < 4) :
    deriveAccessLevel s =
      (match (if typeSeg s = "dm" ∧ idSeg s ≠ "" then userAccessLookup (idSeg s) else none) with
       | some lvl => lvl
       | none =>
           if typeSeg s = "group" then .trusted
           else if typeSeg s = "dm" then .public
           else .public) := by
  unfold deriveAccessLevel typeSeg idSeg
  simp [hm, h4]

/-- C1: `deriveAccessLevel` is total on strings and decides the level
by the priority rules — main session ⇒ private; fewer than 4
colon-delimited segments ⇒ public; dm with a known id ⇒ the table's
level; group ⇒ trusted; unknown dm ⇒ public; anything else ⇒ public.
Consequently a non-main key whose id segment is not in the lookup
table never resolves above public, except groups which get trusted. -/
theorem deriveAccessLevel_resolution (s : String) :
    (s = "agent:main:main" → deriveAccessLevel s = .private_)
    ∧ (s ≠ "agent:main:main" → (jsSplit ':' s).length < 4 →
        deriveAccessLevel s = .public)
    ∧ (∀ lvl, s ≠ "agent:main:main" → 4 ≤ (jsSplit ':' s).length →
        typeSeg s = "dm" → userAccessLookup (idSeg s) = some lvl →
        deriveAccessLevel s = lvl)
    ∧ (s ≠ "agent:main:main" → 4 ≤ (jsSplit ':' s).length →
        userAccessLookup (idSeg s) = none → typeSeg s = "group" →
        deriveAccessLevel s = .trusted)
    ∧ (s ≠ "agent:main:main" → 4 ≤ (jsSplit ':' s).length →
        userAccessLookup (idSeg s) = none → typeSeg s = "dm" →
        deriveAccessLevel s = .public)
    ∧ (s ≠ "agent:main:main" → 4 ≤ (jsSplit ':' s).length →
        typeSeg s ≠ "dm" → typeSeg s ≠ "group" →
        deriveAccessLevel s = .public)
    ∧ (s ≠ "agent:main:main" → userAccessLookup (idSeg s) = none →
        deriveAccessLevel s = .public ∨
          (typeSeg s = "group" ∧ deriveAccessLevel s = .trusted)) := by
  by_cases hm : s = "agent:main:main"
  · exact ⟨fun _ => by simp [deriveAccessLevel, hm],
      fun h => absurd hm h, fun _ h => absurd hm h, fun h => absurd hm h,
      fun h => absurd hm h, fun h => absurd hm h, fun h => absurd hm h⟩
  · by_cases hl : (jsSplit ':' s).length < 4
    · have hres : deriveAccessLevel s = .public := by
        unfold deriveAccessLevel
        simp [hm, hl]
      exact ⟨fun h => absurd h hm, fun _ _ => hres,
        fun lvl _ h4 => absurd hl (by omega),
        fun _ h4 => absurd hl (by omega),
        fun _ h4 => absurd hl (by omega),
        fun _ h4 => absurd hl (by omega),
        fun _ _ => Or.inl hres⟩
    · have hbody := deriveAccessLevel_long s hm hl
      refine ⟨fun h => absurd h hm, fun _ h => absurd hl (by omega),
        ?_, ?_, ?_, ?_, ?_⟩
      · intro lvl _ _ hty hlk
        have hid : idSeg s = "192802611" ∧ lvl = .private_ :=
          userAccessLookup_eq_some.mp hlk
        rw [hbody]
        have hguard : typeSeg s = "dm" ∧ idSeg s ≠ "" := ⟨hty, by simp [hid.1]⟩
        simp [hguard, hlk]
      · intro _ _ hlk hty
        have hnone : (if typeSeg s = "dm" ∧ idSeg s ≠ "" then userAccessLookup (idSeg s) else none) = none := by
          split <;> simp [hlk]
        rw [hbody, hnone]
        simp [hty]
      · intro _ _ hlk hty
        have hnone : (if typeSeg s = "dm" ∧ idSeg s ≠ "" then userAccessLookup (idSeg s) else none) = none := by
          split <;> simp [hlk]
        rw [hbody, hnone]
        simp [hty]
      · intro _ _ hty1 hty2
        have hnone : (if typeSeg s = "dm" ∧ idSeg s ≠ "" then userAccessLookup (idSeg s) else none) = none := by
          split <;> simp_all
        rw [hbody, hnone]
        simp [hty1, hty2]
      · intro _ hlk
        rw [hbody]
        have hnone : (if typeSeg s = "dm" ∧ idSeg s ≠ "" then userAccessLookup (idSeg s) else none) = none := by
          split <;> simp [hlk]
        rw [hnone]
        by_cases hg : typeSeg s = "group"
        · exact Or.inr ⟨hg, by simp [hg]⟩
        · by_cases hd : typeSeg s = "dm" <;> simp [hg, hd]

/-- Concrete run of `deriveAccessLevel_resolution`: a group session key
resolves to trusted. -/
theorem deriveAccessLevel_resolution_witness :
    deriveAccessLevel "agent:main:tg:group:7" = .trusted :=
  (deriveAccessLevel_resolution "agent:main:tg:group:7").2.2.2.1
    (by decide) (by decide) (by decide) (by decide)

/-- C6: `canAccess` is the rank comparison over the fixed ordering
public < household < trusted < family < private; it is reflexive and
monotone in its second argument. -/
theorem canAccess_hierarchy :
    (∀ l r : AccessLevel, canAccess l r = true ↔ levelIndex r ≤ levelIndex l)
    ∧ (∀ l : AccessLevel, canAccess l l = true)
    ∧ (∀ l r₁ r₂ : AccessLevel, canAccess l r₁ = true →
        levelIndex r₂ ≤ levelIndex r₁ → canAccess l r₂ = true)
    ∧ (levelIndex .public < levelIndex .household
        ∧ levelIndex .household < levelIndex .trusted
        ∧ levelIndex .trusted < levelIndex .family
        ∧ levelIndex .family < levelIndex .private_) := by
  decide

/-- Concrete run of `canAccess_hierarchy`: monotonicity applied at
family/trusted. -/
theorem canAccess_hierarchy_witness : canAccess .family .trusted = true :=
  canAccess_hierarchy.2.2.1 .family .family .trusted
    (canAccess_hierarchy.2.1 .family) (by decide)

end Miriam
namespace Miriam

/-- Boolean prefix test agrees with `List.IsPrefix`. -/
theorem listIsPrefix_iff : ∀ {l₁ l₂ : List Char}, listIsPrefix l₁ l₂ = true ↔ l₁ <+: l₂
  | [], l₂ => by simp [listIsPrefix]
  | a :: as, [] => by simp [listIsPrefix]
  | a :: as, b :: bs => by
    rw [listIsPrefix]
    simp only [Bool.and_eq_true, decide_eq_true_eq]
    rw [listIsPrefix_iff]
    exact (List.cons_prefix_cons).symm

/-- Boolean suffix test agrees with `List.IsSuffix`. -/
theorem listIsSuffix_iff {l₁ l₂ : List Char} :
    listIsSuffix l₁ l₂ = true ↔ l₁ <:+ l₂ := by
  rw [listIsSuffix, listIsPrefix_iff]
  exact List.reverse_prefix

/-- Characterisation of `jsEndsWith` as list suffix. -/
theorem jsEndsWith_iff {s suf : String} :
    jsEndsWith s suf = true ↔ suf.data <:+ s.data := by
  rw [jsEndsWith, listIsSuffix_iff]

/-- Characterisation of `jsIncludes` as list infix. -/
theorem jsIncludes_iff_contains {s sub : String} :
    jsIncludes s sub = true ↔ sub.data <:+: s.data := by
  rw [jsIncludes, charsIncludes]
  simp only [List.any_eq_true, List.mem_range, listIsPrefix_iff]
  constructor
  · rintro ⟨i, _, hpre⟩
    exact hpre.isInfix.trans (List.drop_suffix i s.data).isInfix
  · rintro ⟨t, u, h⟩
    refine ⟨t.length, ?_, ?_⟩
    · have hlen : t.length + sub.data.length + u.length = s.data.length := by
        rw [← h]; simp [List.length_append]; omega
      omega
    · have hd : s.data.drop t.length = sub.data ++ u := by
        rw [← h, List.append_assoc, List.drop_left]
      rw [hd]
      exact List.prefix_append _ _
end Miriam
namespace Miriam

/-- Bootstrap file entry: the hook accepts plain path strings or
objects carrying a `path` (and `role`), part_001 line 46. -/
inductive BFile where
  | str (s : String)
  | obj (path role : String)
deriving DecidableEq, Repr

/-- Path of a bootstrap entry (`typeof file === "string" ? file :
file.path`). -/
def BFile.pathOf : BFile → String
  | .str s => s
  | .obj p _ => p

/-- Filter callback of the hook, part_001 lines 45-65: drop any
`MEMORY.md`, drop `memory/private/` content for non-private levels,
drop `memory/family/` content below family. -/
def keepFile (accessLevel : AccessLevel) (file : BFile) : Bool :=
  let path := file.pathOf
  if jsEndsWith path "MEMORY.md" || jsIncludes path "memory/private/MEMORY.md" then
    false
  else if jsIncludes path "memory/private/" && decide (accessLevel ≠ .private_) then
    false
  else if jsIncludes path "memory/family/" && !canAccess accessLevel .family then
    false
  else
    true

/-- Filtering step of the hook, part_001 lines 43-66: applied only for
non-private sessions. -/
def bootstrapFilter (accessLevel : AccessLevel) (files : List BFile) : List BFile :=
  if accessLevel ≠ .private_ then files.filter (keepFile accessLevel) else files

/-- Path join as used by the hook (`node:path` join on already-clean
relative segments). -/
def joinPath (a b : String) : String := a ++ "/" ++ b

/-- Daily-file injection step of the hook, part_001 lines 68-93: the
existing paths are computed once, before either push. -/
def injectDaily (accessLevel : AccessLevel)
    (today yesterday workspaceDir : String) (files : List BFile) : List BFile :=
  let dailyDir := "memory/" ++ accessLevel.name
  let todayDaily := joinPath dailyDir (today ++ "-daily.md")
  let yesterdayDaily := joinPath dailyDir (yesterday ++ "-daily.md")
  let existingPaths := files.map BFile.pathOf
  let files1 :=
    if existingPaths.any (fun p => jsIncludes p todayDaily) then files
    else files ++ [.obj (joinPath workspaceDir todayDaily) "memory"]
  if existingPaths.any (fun p => jsIncludes p yesterdayDaily) then files1
  else files1 ++ [.obj (joinPath workspaceDir yesterdayDaily) "memory"]

/-- Body of the hook for a resolved level: filter, then inject. -/
def handlerAdjustLevel (accessLevel : AccessLevel)
    (today yesterday workspaceDir : String) (files : List BFile) : List BFile :=
  injectDaily accessLevel today yesterday workspaceDir
    (bootstrapFilter accessLevel files)

/-- Try-block of the hook, part_001 lines 37-96, parameterised over the
resolution step (an `Except.error` models a thrown JS error). -/
def handlerTry (resolve : String → Except String AccessLevel)
    (sessionKey today yesterday workspaceDir : String)
    (files : List BFile) : Except String (List BFile) := do
  let accessLevel ← resolve sessionKey
  pure (handlerAdjustLevel accessLevel today yesterday workspaceDir files)

/-- Whole hook, part_001 lines 22-101: the catch block swallows any
error and leaves the caller's bootstrap file list as it was. -/
def handler (resolve : String → Except String AccessLevel)
    (sessionKey today yesterday workspaceDir : String)
    (files : List BFile) : List BFile :=
  match handlerTry resolve sessionKey today yesterday workspaceDir files with
  | .ok fs => fs
  | .error _ => files

/-- Hook with the actual (total) resolver of part_001. -/
def handlerAdjust (sessionKey today yesterday workspaceDir : String)
    (files : List BFile) : List BFile :=
  handler (fun k => .ok (deriveAccessLevel k))
    sessionKey today yesterday workspaceDir files

/-- Unfolded form of the injection step: the two daily files are each
appended exactly when no existing path contains them as a substring. -/
theorem injectDaily_eq (accessLevel : AccessLevel)
    (today yesterday workspaceDir : String) (files : List BFile) :
    injectDaily accessLevel today yesterday workspaceDir files =
      files
        ++ (if (files.map BFile.pathOf).any
              (fun p => jsIncludes p (joinPath ("memory/" ++ accessLevel.name) (today ++ "-daily.md")))
            then []
            else [.obj (joinPath workspaceDir
                    (joinPath ("memory/" ++ accessLevel.name) (today ++ "-daily.md"))) "memory"])
        ++ (if (files.map BFile.pathOf).any
              (fun p => jsIncludes p (joinPath ("memory/" ++ accessLevel.name) (yesterday ++ "-daily.md")))
            then []
            else [.obj (joinPath workspaceDir
                    (joinPath ("memory/" ++ accessLevel.name) (yesterday ++ "-daily.md"))) "memory"]) := by
  unfold injectDaily
  by_cases ht : (files.map BFile.pathOf).any
      (fun p => jsIncludes p (joinPath ("memory/" ++ accessLevel.name) (today ++ "-daily.md"))) <;>
    by_cases hy : (files.map BFile.pathOf).any
        (fun p => jsIncludes p (joinPath ("memory/" ++ accessLevel.name) (yesterday ++ "-daily.md"))) <;>
      simp [ht, hy]

end Miriam
namespace Miriam

/-- A string never contains a strictly longer substring. -/
theorem jsIncludes_false_of_longer {s sub : String}
    (h : s.data.length < sub.data.length) : jsIncludes s sub = false := by
  by_contra h'
  have hb : jsIncludes s sub = true := by
    revert h'; cases jsIncludes s sub <;> simp
  have := (jsIncludes_iff_contains.mp hb).length_le
  omega

/-- Character-level view of `joinPath`. -/
theorem joinPath_data (a b : String) :
    (joinPath a b).data = a.data ++ '/' :: b.data := by
  simp [joinPath, String.data_append]

/-- C2: a trusted session's bootstrap filter keeps only
`memory/public/info.md` of the three candidate paths and appends the
two daily-note entries under `memory/trusted`; in general each daily
file is appended exactly when no already-present path contains it as a
substring (both checks read the pre-push path list). -/
theorem bootstrap_trusted_scenario :
    (∀ today yesterday workspaceDir : String,
      handlerAdjustLevel .trusted today yesterday workspaceDir
          [.str "memory/private/MEMORY.md", .str "memory/family/notes.md",
           .str "memory/public/info.md"] =
        [.str "memory/public/info.md",
         .obj (joinPath workspaceDir (joinPath "memory/trusted" (today ++ "-daily.md"))) "memory",
         .obj (joinPath workspaceDir (joinPath "memory/trusted" (yesterday ++ "-daily.md"))) "memory"])
    ∧ (∀ (lvl : AccessLevel) (t y w : String) (files : List BFile),
        injectDaily lvl t y w files =
          files
            ++ (if (files.map BFile.pathOf).any
                  (fun p => jsIncludes p (joinPath ("memory/" ++ lvl.name) (t ++ "-daily.md")))
                then []
                else [.obj (joinPath w (joinPath ("memory/" ++ lvl.name) (t ++ "-daily.md"))) "memory"])
            ++ (if (files.map BFile.pathOf).any
                  (fun p => jsIncludes p (joinPath ("memory/" ++ lvl.name) (y ++ "-daily.md")))
                then []
                else [.obj (joinPath w (joinPath ("memory/" ++ lvl.name) (y ++ "-daily.md"))) "memory"])) := by
  constructor
  · intro today yesterday workspaceDir
    have hfilter : bootstrapFilter .trusted
        [.str "memory/private/MEMORY.md", .str "memory/family/notes.md",
         .str "memory/public/info.md"] = [.str "memory/public/info.md"] := by
      decide
    have hlen : ∀ d : String,
        (joinPath "memory/trusted" (d ++ "-daily.md")).data.length = 24 + d.data.length := by
      intro d
      have h1 : ("memory/trusted").data.length = 14 := by decide
      have h2 : ("-daily.md").data.length = 9 := by decide
      rw [joinPath_data, String.data_append d "-daily.md"]
      simp [List.length_append, List.length_cons, h1, h2]
      omega
    have hninc : ∀ d : String,
        jsIncludes "memory/public/info.md" (joinPath "memory/trusted" (d ++ "-daily.md")) = false := by
      intro d
      apply jsIncludes_false_of_longer
      rw [hlen]
      have : ("memory/public/info.md").data.length = 21 := by decide
      omega
    unfold handlerAdjustLevel
    rw [hfilter, injectDaily_eq]
    have hname : ("memory/" ++ AccessLevel.name .trusted) = "memory/trusted" := by decide
    rw [hname]
    simp [BFile.pathOf, hninc]
  · intro lvl t y w files
    exact injectDaily_eq lvl t y w files

end Miriam
namespace Miriam

/-- C7: when the body of the bootstrap hook raises (modelled by
`handlerTry` returning an error), the hook swallows the error and the
caller keeps its original bootstrap file list; startup is never
aborted. -/
theorem handler_fail_open (resolve : String → Except String AccessLevel)
    (sessionKey today yesterday workspaceDir : String) (files : List BFile)
    (e : String)
    (h : handlerTry resolve sessionKey today yesterday workspaceDir files = .error e) :
    handler resolve sessionKey today yesterday workspaceDir files = files := by
  unfold handler
  rw [h]

/-- Concrete run of `handler_fail_open`: a resolver that throws leaves
the file list untouched. -/
theorem handler_fail_open_witness :
    handler (fun _ => .error "boom") "agent:main:main" "2026-02-05" "2026-02-04"
        "/ws" [.str "memory/private/MEMORY.md"] = [.str "memory/private/MEMORY.md"] :=
  handler_fail_open (fun _ => .error "boom") "agent:main:main" "2026-02-05"
    "2026-02-04" "/ws" [.str "memory/private/MEMORY.md"] "boom" rfl

/-- Two suffixes of the same string with equal length coincide. -/
theorem suffix_clash {p a b : String} (ha : jsEndsWith p a = true)
    (hb : jsEndsWith p b = true) (hlen : a.data.length = b.data.length) :
    a = b := by
  have h1 := jsEndsWith_iff.mp ha
  have h2 := jsEndsWith_iff.mp hb
  have hor := List.suffix_or_suffix_of_suffix h1 h2
  have hdata : a.data = b.data := by
    rcases hor with h | h
    · exact h.eq_of_length hlen
    · exact (h.eq_of_length hlen.symm).symm
  exact congrArg String.mk hdata

/-- Injected daily paths always end with the daily-file suffix. -/
theorem daily_suffix (w dd t : String) :
    jsEndsWith (joinPath w (joinPath dd (t ++ "-daily.md"))) "-daily.md" = true := by
  rw [jsEndsWith_iff, joinPath_data, joinPath_data, String.data_append]
  exact ((((List.suffix_append t.data ("-daily.md").data).trans
    (List.suffix_cons '/' _)).trans (List.suffix_append dd.data _)).trans
    (List.suffix_cons '/' _)).trans (List.suffix_append w.data _)

end Miriam
namespace Miriam

/-- C10: for every non-private level the hook's output never contains
a file whose path ends with `MEMORY.md`, whatever directory it lives
in; for a private session the hook only appends, removing nothing. -/
theorem memory_md_excluded :
    (∀ (lvl : AccessLevel) (t y w : String) (files : List BFile) (f : BFile),
        lvl ≠ .private_ → jsEndsWith f.pathOf "MEMORY.md" = true →
        f ∉ handlerAdjustLevel lvl t y w files)
    ∧ (∀ (t y w : String) (files : List BFile),
        ∃ extra, handlerAdjustLevel .private_ t y w files = files ++ extra) := by
  constructor
  · intro lvl t y w files f hlvl hmd hin
    unfold handlerAdjustLevel at hin
    rw [injectDaily_eq] at hin
    have hobj : ∀ d : String,
        f ≠ BFile.obj (joinPath w (joinPath ("memory/" ++ lvl.name) (d ++ "-daily.md"))) "memory" := by
      intro d hf
      have hds : jsEndsWith f.pathOf "-daily.md" = true := by
        rw [hf]
        exact daily_suffix w ("memory/" ++ lvl.name) (d)
      have : ("MEMORY.md" : String) = "-daily.md" :=
        suffix_clash hmd hds (by decide)
      exact absurd this (by decide)
    rcases List.mem_append.mp hin with h1 | h2
    · rcases List.mem_append.mp h1 with ha | hb
      · unfold bootstrapFilter at ha
        rw [if_pos hlvl] at ha
        have hk := (List.mem_filter.mp ha).2
        unfold keepFile at hk
        simp [hmd] at hk
      · revert hb
        split
        · simp
        · intro hb
          simp only [List.mem_singleton] at hb
          exact hobj t hb
    · revert h2
      split
      · simp
      · intro hb
        simp only [List.mem_singleton] at hb
        exact hobj y hb
  · intro t y w files
    unfold handlerAdjustLevel bootstrapFilter
    rw [if_neg (by simp), injectDaily_eq, List.append_assoc]
    exact ⟨_, rfl⟩

/-- Concrete run of `memory_md_excluded`: a family-level session still
loses `memory/family/MEMORY.md`. -/
theorem memory_md_excluded_witness :
    (BFile.str "memory/family/MEMORY.md") ∉
      handlerAdjustLevel .family "2026-02-05" "2026-02-04" "/ws"
        [.str "memory/family/MEMORY.md", .str "memory/family/notes.md"] :=
  memory_md_excluded.1 .family "2026-02-05" "2026-02-04" "/ws"
    [.str "memory/family/MEMORY.md", .str "memory/family/notes.md"]
    (.str "memory/family/MEMORY.md") (by decide) (by decide)

end Miriam

namespace Miriam

/-- Task record, task-executor.ts lines 21-31. -/
structure Task where
  id : String
  created : String
  task : String
  status : String
  priority : Option String := none
  context : Option String := none
  command : Option String := none
  dueDate : Option String := none
  completedAt : Option String := none
deriving DecidableEq, Repr

/-- JS `Map.set`: an existing binding is updated in place (its
insertion position is kept); a new key is appended at the end. -/
def jsMapSet (m : List (String × Task)) (k : String) (v : Task) :
    List (String × Task) :=
  if m.any (fun kv => kv.1 = k) then
    m.map (fun kv => if kv.1 = k then (k, v) else kv)
  else
    m ++ [(k, v)]

/-- JS `Map.get`: value of the first binding with the key. -/
def mapGet : List (String × Task) → String → Option Task
  | [], _ => none
  | kv :: m, k => if kv.1 = k then some kv.2 else mapGet m k

/-- The `taskMap` built by `getLatestTasks`, task-executor.ts lines
76-80: later entries overwrite earlier ones. -/
def taskMapOf (tasks : List Task) : List (String × Task) :=
  tasks.foldl (fun m task => jsMapSet m task.id task) []

/-- Latest version of each task, task-executor.ts lines 75-83. -/
def getLatestTasks (tasks : List Task) : List Task :=
  (taskMapOf tasks).map (·.2)

/-- Last record with a given id, in file order (the claimed "current"
record). -/
def lastTaskWith (k : String) (tasks : List Task) : Option Task :=
  (tasks.filter (fun t => t.id = k)).getLast?

/-- Filter tasks by status, task-executor.ts lines 88-94 (`!filter` is
true both for an absent and for an empty filter string). -/
def filterByStatus (tasks : List Task) (filter : Option String) : List Task :=
  match filter with
  | none => tasks
  | some f => if f = "" ∨ f = "all" then tasks
      else tasks.filter (fun t => t.status = f)

/-- Update task status, task-executor.ts lines 142-167: finds the task
among the given (latest) records, throws when absent, otherwise builds
the updated copy that gets appended to the file as a fresh JSONL
line. -/
def updateTaskStatus (taskId newStatus nowIso : String) (tasks : List Task) :
    Except String Task :=
  match tasks.find? (fun t => t.id = taskId) with
  | none => .error ("Task not found: " ++ taskId)
  | some task =>
      .ok { task with
            status := newStatus,
            completedAt :=
              if newStatus = "completed" then some nowIso else task.completedAt }

/-- In-place overwrite at one key leaves every other key's binding alone. -/
theorem mapGet_overwrite_ne (m : List (String × Task)) (k : String) (v : Task)
    (k' : String) (h : ¬(k' = k)) :
    mapGet (m.map (fun kv => if kv.1 = k then (k, v) else kv)) k' = mapGet m k' := by
  induction m with
  | nil => rfl
  | cons a m ih =>
    by_cases ha : a.1 = k
    · have hk : ¬(k = k') := fun e => h e.symm
      simp [mapGet, ha, hk, ih]
    · by_cases hk : a.1 = k' <;> simp [mapGet, ha, hk, h, ih]

/-- In-place overwrite at a present key makes `get` return the new value. -/
theorem mapGet_overwrite_eq (m : List (String × Task)) (k : String) (v : Task)
    (h : m.any (fun kv => kv.1 = k) = true) :
    mapGet (m.map (fun kv => if kv.1 = k then (k, v) else kv)) k = some v := by
  induction m with
  | nil => simp at h
  | cons a m ih =>
    by_cases ha : a.1 = k
    · simp [mapGet, ha]
    · simp only [List.any_cons, Bool.or_eq_true, decide_eq_true_eq] at h
      rcases h with h | h
      · exact absurd h ha
      · simp [mapGet, ha, ih h]

/-- Appending a fresh binding makes `get` return it. -/
theorem mapGet_append_last (m : List (String × Task)) (k : String) (v : Task)
    (h : ¬(m.any (fun kv => kv.1 = k) = true)) :
    mapGet (m ++ [(k, v)]) k = some v := by
  induction m with
  | nil => simp [mapGet]
  | cons a m ih =>
    simp only [List.any_cons, Bool.or_eq_true, decide_eq_true_eq, not_or] at h
    simp only [List.cons_append, mapGet, if_neg h.1]
    exact ih (by simpa using h.2)

/-- Appending a binding leaves every other key's lookup alone. -/
theorem mapGet_append_ne (m : List (String × Task)) (k : String) (v : Task)
    (k' : String) (h : ¬(k' = k)) :
    mapGet (m ++ [(k, v)]) k' = mapGet m k' := by
  induction m with
  | nil => simp [mapGet, Ne.symm h]
  | cons a m ih =>
    by_cases ha : a.1 = k' <;> simp [mapGet, ha, ih]

/-- JS `Map.set` followed by `Map.get`: the set key yields the new value, others untouched. -/
theorem mapGet_jsMapSet (m : List (String × Task)) (k : String) (v : Task)
    (k' : String) :
    mapGet (jsMapSet m k v) k' = if k' = k then some v else mapGet m k' := by
  unfold jsMapSet
  by_cases hany : m.any (fun kv => kv.1 = k) = true
  · rw [if_pos hany]
    by_cases hk : k' = k
    · subst hk
      rw [if_pos rfl]
      exact mapGet_overwrite_eq m k' v hany
    · rw [if_neg hk]
      exact mapGet_overwrite_ne m k v k' hk
  · rw [if_neg hany]
    by_cases hk : k' = k
    · subst hk
      rw [if_pos rfl]
      exact mapGet_append_last m k' v hany
    · rw [if_neg hk]
      exact mapGet_append_ne m k v k' hk

/-- Unfolding of the last-record-with-id function over a cons. -/
theorem lastTaskWith_cons (k : String) (t : Task) (ts : List Task) :
    lastTaskWith k (t :: ts) =
      if t.id = k then
        (match lastTaskWith k ts with
         | some u => some u
         | none => some t)
      else lastTaskWith k ts := by
  unfold lastTaskWith
  by_cases ht : t.id = k
  · rw [List.filter_cons, if_pos (by simpa using ht), if_pos ht]
    cases hf : (ts.filter (fun u => u.id = k)) with
    | nil => simp [hf]
    | cons b l =>
      cases hg : (b :: l).getLast? with
      | some u => exact hg
      | none => exact absurd (List.getLast?_eq_none_iff.mp hg) (by simp)
  · rw [List.filter_cons, if_neg (by simpa using ht), if_neg ht]

/-- Fold invariant: after replaying records over any initial map, a key holds the last record with that id, or its old binding if none. -/
theorem mapGet_foldl (ts : List Task) (m : List (String × Task)) (k : String) :
    mapGet (ts.foldl (fun m t => jsMapSet m t.id t) m) k =
      match lastTaskWith k ts with
      | some u => some u
      | none => mapGet m k := by
  induction ts generalizing m with
  | nil => simp [lastTaskWith]
  | cons t ts ih =>
    rw [List.foldl_cons, ih, lastTaskWith_cons]
    by_cases ht : t.id = k
    · rw [if_pos ht]
      cases hlast : lastTaskWith k ts with
      | some u => simp
      | none => simp [mapGet_jsMapSet, ht]
    · rw [if_neg ht]
      cases hlast : lastTaskWith k ts with
      | some u => simp
      | none => simp [mapGet_jsMapSet, Ne.symm ht]

end Miriam
namespace Miriam

/-- Replay rule: the map built by `getLatestTasks` holds, for every id,
exactly the record at the latest append position with that id. -/
theorem taskMap_lastTaskWith (tasks : List Task) (k : String) :
    mapGet (taskMapOf tasks) k = lastTaskWith k tasks := by
  unfold taskMapOf
  rw [mapGet_foldl]
  cases h : lastTaskWith k tasks <;> simp [mapGet]

/-- C3: latest-by-id replay is decided by append position (subsequent
entries with the same id overwrite earlier ones in the map); a status
update produces a record with the same id that is appended, so after
two appends with one id both records are still in the log while the
map yields the later one; and the pending/completed listing scenario. -/
theorem latest_by_append_position :
    (∀ (tasks : List Task) (k : String),
        mapGet (taskMapOf tasks) k = lastTaskWith k tasks)
    ∧ (∀ (taskId newStatus nowIso : String) (tasks : List Task) (u : Task),
        updateTaskStatus taskId newStatus nowIso tasks = .ok u → u.id = taskId)
    ∧ (∀ (log : List Task) (a b : Task), a.id = b.id →
        a ∈ log ++ [a, b] ∧ b ∈ log ++ [a, b] ∧
        mapGet (taskMapOf (log ++ [a, b])) a.id = some b)
    ∧ (filterByStatus
          (getLatestTasks
            [{ id := "t1", created := "", task := "", status := "pending" },
             { id := "t1", created := "", task := "", status := "completed" }])
          (some "pending") = []
        ∧ filterByStatus
            (getLatestTasks
              [{ id := "t1", created := "", task := "", status := "pending" },
               { id := "t1", created := "", task := "", status := "completed" }])
            (some "completed")
            = [{ id := "t1", created := "", task := "", status := "completed" }]) := by
  refine ⟨taskMap_lastTaskWith, ?_, ?_, by decide, by decide⟩
  · intro taskId newStatus nowIso tasks u h
    unfold updateTaskStatus at h
    cases hf : tasks.find? (fun t => t.id = taskId) with
    | none => rw [hf] at h; exact absurd h (by simp)
    | some task =>
      rw [hf] at h
      have hu : u = { task with
          status := newStatus,
          completedAt :=
            if newStatus = "completed" then some nowIso else task.completedAt } := by
        cases h; rfl
      have hp := List.find?_some hf
      simp only [decide_eq_true_eq] at hp
      rw [hu]
      exact hp
  · intro log a b hab
    refine ⟨by simp, by simp, ?_⟩
    rw [taskMap_lastTaskWith]
    unfold lastTaskWith
    rw [List.filter_append]
    have hfb : List.filter (fun t => t.id = a.id) [a, b] = [a, b] := by
      simp [List.filter, hab]
    rw [hfb, show ([a, b] : List Task) = [a] ++ [b] from rfl,
      ← List.append_assoc]
    exact List.getLast?_concat _

theorem latest_by_append_position_witness :
    ({ id := "t1", created := "", task := "", status := "pending" } : Task)
        ∈ ([] : List Task) ++
          [{ id := "t1", created := "", task := "", status := "pending" },
           { id := "t1", created := "", task := "", status := "completed" }]
    ∧ ({ id := "t1", created := "", task := "", status := "completed" } : Task)
        ∈ ([] : List Task) ++
          [{ id := "t1", created := "", task := "", status := "pending" },
           { id := "t1", created := "", task := "", status := "completed" }]
    ∧ mapGet (taskMapOf (([] : List Task) ++
          [{ id := "t1", created := "", task := "", status := "pending" },
           { id := "t1", created := "", task := "", status := "completed" }]))
        ({ id := "t1", created := "", task := "", status := "pending" } : Task).id
        = some { id := "t1", created := "", task := "", status := "completed" } :=
  latest_by_append_position.2.2.1 []
    { id := "t1", created := "", task := "", status := "pending" }
    { id := "t1", created := "", task := "", status := "completed" } (by decide)

end Miriam
namespace Miriam

/-- Non-blank lines of a JSONL tasks file, task-executor.ts line 46:
trim the content, split on newlines, keep lines with non-blank trim. -/
def taskLines (content : String) : List String :=
  ((splitOnChar '\n' (trimChars content.data)).map String.mk).filter jsTrimNonempty

/-- Read all tasks, task-executor.ts lines 43-69: per-line parse inside
a per-line catch, so an invalid line is skipped, never fatal.  The
platform `JSON.parse` is passed in as `parse`. -/
def readTasks (parse : String → Option Task) (content : String) : List Task :=
  (taskLines content).foldl
    (fun tasks line =>
      match parse line with
      | some t => tasks ++ [t]
      | none => tasks) []

/-- Diary entry record, diary.ts lines 11-24. -/
structure DiaryEntry where
  id : String
  timestamp : String
  date : String
  mood : Option String := none
  energy : Option String := none
  reflections : String
  gratitude : Option (List String) := none
  challenges : Option (List String) := none
  learnings : Option (List String) := none
  connections : Option (List String) := none
  tags : Option (List String) := none
  private_ : Bool := true
deriving DecidableEq, Repr

/-- Non-empty lines of the diary file, diary.ts line 98
(`filter(l => l)` keeps every non-empty string, blank or not). -/
def diaryLines (content : String) : List String :=
  ((splitOnChar '\n' (trimChars content.data)).map String.mk).filter
    (fun l => l ≠ "")

/-- Line-parsing stage of `diaryRead`, diary.ts line 100:
`lines.map(line => JSON.parse(line))` with no per-line catch, so the
first unparsable line throws out of `diaryRead` (the later
filter/sort/limit steps operate on the parsed list and cannot recover
from this).  An `Except.error` models the thrown `SyntaxError`. -/
def diaryParseAll (parse : String → Option DiaryEntry) (content : String) :
    Except String (List DiaryEntry) :=
  (diaryLines content).mapM (fun line =>
    match parse line with
    | some e => Except.ok e
    | none => Except.error ("Unexpected token in JSON: " ++ line))

/-- The skip-on-parse-failure fold is a `filterMap`. -/
theorem readTasks_foldl (parse : String → Option Task) (lines : List String)
    (acc : List Task) :
    lines.foldl
        (fun tasks line =>
          match parse line with
          | some t => tasks ++ [t]
          | none => tasks) acc
      = acc ++ lines.filterMap parse := by
  induction lines generalizing acc with
  | nil => simp
  | cons l lines ih =>
    rw [List.foldl_cons]
    cases h : parse l <;> simp [List.filterMap_cons, h, ih]

/-- The number of `filterMap` survivors equals the count of inputs on which the function succeeds. -/
theorem length_filterMap_eq_count {α β : Type} (f : α → Option β) (l : List α) :
    (l.filterMap f).length = (l.filter (fun x => (f x).isSome)).length := by
  induction l with
  | nil => rfl
  | cons a l ih =>
    cases h : f a <;> simp [List.filterMap_cons, List.filter_cons, h, ih]

/-- Monadic map over `Except` succeeds, with all entries, when every line parses. -/
theorem mapM_ok_of_all (parse : String → Option DiaryEntry) :
    ∀ L : List String, (∀ l ∈ L, (parse l).isSome) →
      ∃ es : List DiaryEntry,
        (L.mapM (fun line =>
          match parse line with
          | some e => Except.ok e
          | none => Except.error ("Unexpected token in JSON: " ++ line))
            : Except String (List DiaryEntry)) = .ok es
        ∧ es.length = L.length := by
  intro L
  induction L with
  | nil => intro _; exact ⟨[], rfl, rfl⟩
  | cons a L ih =>
    intro h
    obtain ⟨e, he⟩ := Option.isSome_iff_exists.mp (h a (by simp))
    obtain ⟨es, hes, hlen⟩ := ih (fun l hl => h l (by simp [hl]))
    refine ⟨e :: es, ?_, by simp [hlen]⟩
    rw [List.mapM_cons, he, hes]
    rfl

/-- Monadic map over `Except` fails as soon as any line fails to parse. -/
theorem mapM_error_of_bad (parse : String → Option DiaryEntry) :
    ∀ L : List String, ∀ l ∈ L, parse l = none →
      ∃ msg,
        (L.mapM (fun line =>
          match parse line with
          | some e => Except.ok e
          | none => Except.error ("Unexpected token in JSON: " ++ line))
            : Except String (List DiaryEntry)) = .error msg := by
  intro L
  induction L with
  | nil => intro l hl; exact absurd hl (by simp)
  | cons a L ih =>
    intro l hl hbad
    rcases List.mem_cons.mp hl with rfl | hl'
    · refine ⟨"Unexpected token in JSON: " ++ l, ?_⟩
      rw [List.mapM_cons, hbad]
      rfl
    · cases ha : parse a with
      | none =>
        refine ⟨"Unexpected token in JSON: " ++ a, ?_⟩
        rw [List.mapM_cons, ha]
        rfl
      | some e =>
        obtain ⟨msg, hmsg⟩ := ih l hl' hbad
        refine ⟨msg, ?_⟩
        rw [List.mapM_cons, ha, hmsg]
        rfl

end Miriam
namespace Miriam

/-- Minimal concrete diary entry used in concrete runs. -/
def demoDiaryEntry : DiaryEntry :=
  { id := "1", timestamp := "2026-02-05T00:00:00Z", date := "2026-02-05",
    reflections := "r", private_ := true }

/-- Concrete stand-in for the platform JSON parser in concrete runs: it
recognises exactly the line `GOOD` as well-formed. -/
def demoDiaryParse (line : String) : Option DiaryEntry :=
  if line = "GOOD" then some demoDiaryEntry else none

/-- C4 counterexample: a diary log with one malformed and one
well-formed line makes `diaryRead` throw (it maps `JSON.parse` over the
lines with no per-line catch), instead of returning the single
well-formed entry; so the claim's no-exception property fails for the
diary reader. -/
theorem diary_read_raises_counterexample :
    diaryParseAll demoDiaryParse "not-json\nGOOD"
        = .error "Unexpected token in JSON: not-json"
    ∧ (diaryLines "not-json\nGOOD").filter
        (fun l => (demoDiaryParse l).isSome) = ["GOOD"] :=
  ⟨rfl, by decide⟩

/-- C4 (amended): `readTasks` never throws and returns exactly the
well-formed lines (equal in length to the valid-line count, malformed
lines dropped); `diaryRead`, in contrast, parses every non-empty line
with no per-line catch: it succeeds with all entries only when every
line is well-formed, and any malformed line makes it throw. -/
theorem log_read_malformed_lines :
    (∀ (parse : String → Option Task) (content : String),
        readTasks parse content = (taskLines content).filterMap parse)
    ∧ (∀ (parse : String → Option Task) (content : String),
        (readTasks parse content).length =
          ((taskLines content).filter (fun l => (parse l).isSome)).length)
    ∧ (∀ (parse : String → Option DiaryEntry) (content : String),
        (∀ l ∈ diaryLines content, (parse l).isSome) →
        ∃ es, diaryParseAll parse content = .ok es
          ∧ es.length = (diaryLines content).length)
    ∧ (∀ (parse : String → Option DiaryEntry) (content : String) (l : String),
        l ∈ diaryLines content → parse l = none →
        ∃ msg, diaryParseAll parse content = .error msg) := by
  refine ⟨?_, ?_, ?_, ?_⟩
  · intro parse content
    unfold readTasks
    rw [readTasks_foldl]
    simp
  · intro parse content
    unfold readTasks
    rw [readTasks_foldl]
    simp [length_filterMap_eq_count]
  · intro parse content h
    exact mapM_ok_of_all parse (diaryLines content) h
  · intro parse content l hl hbad
    exact mapM_error_of_bad parse (diaryLines content) l hl hbad

/-- Concrete run of `log_read_malformed_lines`: the malformed first
line makes the diary parse stage throw. -/
theorem log_read_malformed_lines_witness :
    ∃ msg, diaryParseAll demoDiaryParse "not-json\nGOOD" = .error msg :=
  log_read_malformed_lines.2.2.2 demoDiaryParse "not-json\nGOOD" "not-json"
    (by decide) (by decide)

end Miriam
namespace Miriam

/-- A file write a tool would perform (append of a line, or a whole
rewrite through the atomic writer).  Directory creation has no effect
on file contents and is not tracked. -/
inductive FsWrite where
  | append (path line : String)
  | overwrite (path content : String)
deriving DecidableEq, Repr

/-- JS `a || b` on an optional string: the empty string is falsy. -/
def jsOr (o : Option String) (d : String) : String :=
  match o with
  | some s => if s = "" then d else s
  | none => d

/-- JS truthiness guard on an optional string field (`if (x) …`). -/
def jsTruthy (o : Option String) : Option String :=
  match o with
  | some s => if s = "" then none else some s
  | none => none

/-- Lower-case a string (`String.prototype.toLowerCase`, ASCII is
enough here). -/
def jsToLower (s : String) : String :=
  String.mk (s.data.map Char.toLower)

/-- Parse a natural-language date, quick-capture.ts lines 74-89; the
actual today/tomorrow day strings are platform inputs. -/
def parseDate (todayStr tomorrowStr : String) (dateStr : String) : String :=
  let lower := String.mk (trimChars (jsToLower dateStr).data)
  if lower = "tomorrow" then tomorrowStr
  else if lower = "today" then todayStr
  else dateStr

/-- Quick-capture parameters, quick-capture.ts lines 18-26 (the
free-form context payload is kept as an opaque string). -/
structure QuickCaptureParams where
  content : String
  type : String
  priority : Option String := none
  context : Option String := none
  command : Option String := none
  dueDate : Option String := none
  workspaceRoot : Option String := none
deriving DecidableEq, Repr

/-- Quick-capture result, quick-capture.ts lines 28-33. -/
structure QuickCaptureResult where
  success : Bool
  taskId : Option String := none
  filePath : Option String := none
  error : Option String := none
deriving DecidableEq, Repr

/-- Valid capture types, quick-capture.ts line 46. -/
def VALID_TYPES : List String := ["task", "uncertainty", "thread", "note"]

/-- Valid priorities, quick-capture.ts line 47. -/
def VALID_PRIORITIES : List String := ["low", "medium", "high"]

/-- Validation, quick-capture.ts lines 52-69: empty content first, then
type, then (truthy) priority. -/
def validateParams (params : QuickCaptureParams) : Option String :=
  if ¬jsTrimNonempty params.content then
    some "Content cannot be empty"
  else if ¬VALID_TYPES.contains params.type then
    some ("Invalid type: " ++ params.type
      ++ ". Must be one of: task, uncertainty, thread, note")
  else
    match jsTruthy params.priority with
    | some p =>
        if ¬VALID_PRIORITIES.contains p then
          some ("Invalid priority: " ++ p ++ ". Must be one of: low, medium, high")
        else none
    | none => none

/-- Task capture, quick-capture.ts lines 94-139. -/
def captureTask (stringifyTask : Task → String)
    (uuid now todayStr tomorrowStr memoryDir : String)
    (params : QuickCaptureParams) : QuickCaptureResult × List FsWrite :=
  let task : Task :=
    { id := uuid, created := now, task := jsTrim params.content,
      status := "pending", priority := some (jsOr params.priority "medium"),
      context := jsTruthy params.context,
      command := jsTruthy params.command,
      dueDate := (jsTruthy params.dueDate).map (parseDate todayStr tomorrowStr) }
  let tasksPath := joinPath memoryDir "tasks.jsonl"
  ({ success := true, taskId := some uuid, filePath := some tasksPath },
   [.append tasksPath (stringifyTask task ++ "\n")])

/-- Section capture shared by uncertainty and note,
quick-capture.ts lines 144-229 (`fsRead` is the current content of the
daily file, if it exists). -/
def captureToDaily (fsRead : String → Option String)
    (memoryDir todayStr header : String) (content : String) :
    QuickCaptureResult × List FsWrite :=
  let dailyPath := joinPath (joinPath memoryDir "private") (todayStr ++ "-daily.md")
  let existing :=
    match fsRead dailyPath with
    | some c => c
    | none => "# " ++ todayStr ++ " - Daily Log\n\n"
  let c1 :=
    if jsIncludes existing header then existing
    else existing ++ "\n" ++ header ++ "\n\n"
  let c2 := c1 ++ "- " ++ jsTrim content ++ "\n"
  ({ success := true, filePath := some dailyPath }, [.overwrite dailyPath c2])

/-- quickCapture, quick-capture.ts lines 234-282: validate, then route;
a validation failure is returned as a structured result with no file
write. -/
def quickCapture (stringifyTask : Task → String)
    (fsRead : String → Option String)
    (uuid now todayStr tomorrowStr : String)
    (params : QuickCaptureParams) : QuickCaptureResult × List FsWrite :=
  match validateParams params with
  | some err => ({ success := false, error := some err }, [])
  | none =>
    let workspaceRoot := jsOr params.workspaceRoot "~/.openclaw/workspace"
    let memoryDir := joinPath workspaceRoot "memory"
    if params.type = "task" then
      captureTask stringifyTask uuid now todayStr tomorrowStr memoryDir params
    else if params.type = "uncertainty" then
      captureToDaily fsRead memoryDir todayStr "## Uncertain/Exploring" params.content
    else if params.type = "note" then
      captureToDaily fsRead memoryDir todayStr "## Notes" params.content
    else if params.type = "thread" then
      ({ success := false,
         error := some "Thread capture not yet implemented - use thread-marker tool" }, [])
    else
      ({ success := false, error := some ("Unknown type: " ++ params.type) }, [])

/-- Diary write parameters, diary.ts lines 26-35. -/
structure DiaryWriteParams where
  reflections : String
  mood : Option String := none
  energy : Option String := none
  gratitude : Option (List String) := none
  challenges : Option (List String) := none
  learnings : Option (List String) := none
  connections : Option (List String) := none
  tags : Option (List String) := none
deriving DecidableEq, Repr

/-- Path constant of diary.ts line 45 (HOME abbreviated). -/
def DIARY_PATH : String := "~/.openclaw/workspace/memory/diary.jsonl"

/-- diaryWrite, diary.ts lines 50-84: validation failures are thrown
(`Except.error`), not returned; on success one JSONL line is
appended. -/
def diaryWrite (stringifyEntry : DiaryEntry → String)
    (uuid nowIso todayStr : String) (params : DiaryWriteParams) :
    Except String ((Bool × DiaryEntry) × List FsWrite) :=
  if ¬jsTrimNonempty params.reflections then
    .error "Reflections cannot be empty"
  else if params.reflections.data.length < 50 then
    .error "Reflections should be at least 50 characters (be genuine, take your time)"
  else
    let entry : DiaryEntry :=
      { id := uuid, timestamp := nowIso, date := todayStr,
        mood := params.mood, energy := params.energy,
        reflections := jsTrim params.reflections,
        gratitude := params.gratitude, challenges := params.challenges,
        learnings := params.learnings, connections := params.connections,
        tags := params.tags, private_ := true }
    .ok ((true, entry), [.append DIARY_PATH (stringifyEntry entry ++ "\n")])

/-- Dashboard note, part_003 lines 18-22. -/
structure DashboardNote where
  message : String
  emoji : String
  timestamp : String
deriving DecidableEq, Repr

/-- Validation result, part_003 lines 24-27. -/
structure ValidationResult where
  valid : Bool
  error : Option String := none
deriving DecidableEq, Repr

/-- Maximum message length, part_003 line 31. -/
def MAX_MESSAGE_LENGTH : Nat := 500

/-- validateNoteContent, part_003 lines 39-57. -/
def validateNoteContent (message : String) (emoji : String) : ValidationResult :=
  let trimmed := jsTrim message
  if trimmed.data.length = 0 then
    { valid := false, error := some "Message cannot be empty" }
  else if trimmed.data.length > MAX_MESSAGE_LENGTH then
    { valid := false, error := some "Message too long (max 500 characters)" }
  else
    { valid := true }

/-- updateDashboardNote, part_003 lines 64-86: throws on invalid
content (`Except.error`), otherwise writes the note atomically
(writeJSON adds a trailing newline). -/
def updateDashboardNote (stringifyNote : DashboardNote → String)
    (nowIso noteFile message emoji : String) :
    Except String (DashboardNote × List FsWrite) :=
  let validation := validateNoteContent message emoji
  if ¬validation.valid then
    .error (validation.error.getD "")
  else
    let note : DashboardNote :=
      { message := jsTrim message, emoji := emoji, timestamp := nowIso }
    .ok (note, [.overwrite noteFile (stringifyNote note ++ "\n")])

/-- A string trims to nothing exactly when it has no non-whitespace
character. -/
theorem jsTrimNonempty_false_iff (s : String) :
    jsTrimNonempty s = false ↔ trimChars s.data = [] := by
  unfold jsTrimNonempty trimChars
  constructor
  · intro h
    have hall : ∀ c ∈ s.data, c.isWhitespace := by
      intro c hc
      by_contra hw
      have : s.data.any (fun c => !c.isWhitespace) = true :=
        List.any_eq_true.mpr ⟨c, hc, by simpa using hw⟩
      rw [h] at this
      exact absurd this (by simp)
    have h1 : s.data.dropWhile Char.isWhitespace = [] :=
      List.dropWhile_eq_nil_iff.mpr hall
    simp [h1]
  · intro h
    have hrev : (s.data.dropWhile Char.isWhitespace).reverse.dropWhile Char.isWhitespace = [] := by
      simpa using congrArg List.reverse h
    have h3 : ∀ x ∈ s.data.dropWhile Char.isWhitespace, x.isWhitespace := by
      intro x hx
      exact List.dropWhile_eq_nil_iff.mp hrev x (by simpa using hx)
    have h5 : ∀ x ∈ s.data, x.isWhitespace := by
      intro x hx
      rw [← List.takeWhile_append_dropWhile (p := Char.isWhitespace) (l := s.data)] at hx
      rcases List.mem_append.mp hx with hx' | hx'
      · exact List.mem_takeWhile_imp hx'
      · exact h3 x hx'
    rw [List.any_eq_false]
    intro c hc
    simp [h5 c hc]
end Miriam
namespace Miriam

/-- C5 counterexample: on whitespace-only content both `diaryWrite` and
`updateDashboardNote` throw (modelled by `Except.error`) instead of
returning a structured failure result; only `quickCapture` returns a
structured result.  (No write is performed in either case.) -/
theorem empty_content_throws_counterexample :
    updateDashboardNote (fun _ => "") "2026-02-05T00:00:00Z" "/dash/note.json" " " ""
        = .error "Message cannot be empty"
    ∧ diaryWrite (fun _ => "") "u1" "2026-02-05T00:00:00Z" "2026-02-05"
        { reflections := " " } = .error "Reflections cannot be empty" :=
  ⟨rfl, rfl⟩

/-- C5 (amended): on empty or whitespace-only content every one of the
three explicitly invoked writers aborts before any file write;
`quickCapture` reports the failure as a structured result with
`success := false`, while `diaryWrite` and `updateDashboardNote` raise
an exception carrying the validation message. -/
theorem empty_content_validation :
    (∀ (stringifyTask : Task → String) (fsRead : String → Option String)
        (uuid now todayStr tomorrowStr : String) (params : QuickCaptureParams),
        jsTrimNonempty params.content = false →
        quickCapture stringifyTask fsRead uuid now todayStr tomorrowStr params
          = ({ success := false, error := some "Content cannot be empty" }, []))
    ∧ (∀ (stringifyEntry : DiaryEntry → String) (uuid nowIso todayStr : String)
        (params : DiaryWriteParams),
        jsTrimNonempty params.reflections = false →
        diaryWrite stringifyEntry uuid nowIso todayStr params
          = .error "Reflections cannot be empty")
    ∧ (∀ (stringifyNote : DashboardNote → String)
        (nowIso noteFile message emoji : String),
        jsTrimNonempty message = false →
        updateDashboardNote stringifyNote nowIso noteFile message emoji
          = .error "Message cannot be empty") := by
  refine ⟨?_, ?_, ?_⟩
  · intro _ _ _ _ _ _ params h
    unfold quickCapture validateParams
    simp [h]
  · intro _ _ _ _ params h
    unfold diaryWrite
    simp [h]
  · intro _ _ _ message emoji h
    have ht : (jsTrim message).data.length = 0 := by
      rw [jsTrim]
      simp [(jsTrimNonempty_false_iff message).mp h]
    unfold updateDashboardNote validateNoteContent
    simp [ht]

/-- Concrete run of `empty_content_validation`: whitespace-only capture
content yields a structured failure and no write. -/
theorem empty_content_validation_witness :
    quickCapture (fun _ => "") (fun _ => none) "u1" "now" "t" "tm"
        { content := "   ", type := "task" }
      = ({ success := false, error := some "Content cannot be empty" }, []) :=
  empty_content_validation.1 (fun _ => "") (fun _ => none) "u1" "now" "t" "tm"
    { content := "   ", type := "task" } (by decide)

end Miriam
namespace Miriam

/-- Lines of a file content (`content.split("\n")`). -/
def fileLines (s : String) : List String :=
  (splitOnChar '\n' s.data).map String.mk

/-- Non-blank lines of a file content (`split` then `filter(line =>
line.trim())`). -/
def nonblankLines (s : String) : List String :=
  (fileLines s).filter jsTrimNonempty

/-- appendToFile / `fs.appendFile`, part_005 lines 102-115: the new
bytes land after the existing bytes. -/
def appendToFile (content line : String) : String := content ++ line

/-- resetDailyQuota, research.ts lines 181-204, as a rewrite of the
log-file content: non-blank lines are kept when they fail to parse or
parse to an entry of another day; `pd` is the platform
`JSON.parse(line).date` (it yields `none` both when the parse throws
and when the parsed value has no matching date field, and in both
cases the line is kept). -/
def resetDailyQuota (pd : String → Option String) (todayStr content : String) :
    String :=
  let lines := nonblankLines content
  let filtered := lines.filter (fun line =>
    match pd line with
    | some d => decide (d ≠ todayStr)
    | none => true)
  joinLinesNl filtered ++ (if 0 < filtered.length then "\n" else "")

/-- Unfolding of `splitOnChar` over a cons, given the split of the
tail. -/
theorem splitOnChar_cons (sep c : Char) (cs : List Char) (a : List Char)
    (r : List (List Char)) (h : splitOnChar sep cs = a :: r) :
    splitOnChar sep (c :: cs) =
      if c = sep then [] :: a :: r else (c :: a) :: r := by
  rw [splitOnChar, h]

/-- Splitting never yields an empty piece list. -/
theorem splitOnChar_ne_nil (sep : Char) : ∀ l : List Char, splitOnChar sep l ≠ []
  | [] => by simp [splitOnChar]
  | c :: cs => by
    obtain ⟨a, r, h⟩ := List.exists_cons_of_ne_nil (splitOnChar_ne_nil sep cs)
    rw [splitOnChar_cons sep c cs a r h]
    split <;> simp

/-- No piece produced by splitting contains the separator. -/
theorem splitOnChar_no_sep (sep : Char) :
    ∀ l : List Char, ∀ p ∈ splitOnChar sep l, sep ∉ p := by
  intro l
  induction l with
  | nil =>
    intro p hp
    simp [splitOnChar] at hp
    simp [hp]
  | cons c cs ih =>
    intro p hp
    obtain ⟨a, r, h⟩ := List.exists_cons_of_ne_nil (splitOnChar_ne_nil sep cs)
    rw [splitOnChar_cons sep c cs a r h] at hp
    by_cases hc : c = sep
    · rw [if_pos hc] at hp
      rcases List.mem_cons.mp hp with rfl | hp'
      · simp
      · exact ih p (h ▸ hp')
    · rw [if_neg hc] at hp
      rcases List.mem_cons.mp hp with rfl | hp'
      · intro hmem
        rcases List.mem_cons.mp hmem with rfl | hmem'
        · exact hc rfl
        · exact ih a (h ▸ List.mem_cons_self a r) hmem'
      · exact ih p (h ▸ List.mem_cons_of_mem a hp')

/-- Splitting a content of the form `piece ++ sep ++ rest` peels off
the separator-free `piece`. -/
theorem splitOnChar_append_sep (sep : Char) :
    ∀ (piece rest : List Char), sep ∉ piece →
      splitOnChar sep (piece ++ sep :: rest) = piece :: splitOnChar sep rest := by
  intro piece
  induction piece with
  | nil =>
    intro rest _
    obtain ⟨a, r, h⟩ := List.exists_cons_of_ne_nil (splitOnChar_ne_nil sep rest)
    simp only [List.nil_append]
    rw [splitOnChar_cons sep sep rest a r h, if_pos rfl, h]
  | cons c p ih =>
    intro rest hns
    have hc : ¬(c = sep) := fun e => hns (by simp [e])
    have hp : sep ∉ p := fun hm => hns (by simp [hm])
    simp only [List.cons_append]
    rw [splitOnChar_cons sep c (p ++ sep :: rest) p (splitOnChar sep rest)
      (ih rest hp), if_neg hc]

end Miriam
namespace Miriam

/-- Round trip: splitting a newline-join (with trailing newline) of
newline-free lines recovers the lines plus one empty piece. -/
theorem splitOnChar_joinNl :
    ∀ L : List String, L ≠ [] → (∀ l ∈ L, ('\n' : Char) ∉ l.data) →
      splitOnChar '\n' ((joinLinesNl L ++ "\n").data)
        = (L.map String.data) ++ [[]] := by
  intro L
  induction L with
  | nil => intro h; exact absurd rfl h
  | cons l L ih =>
    intro _ hnl
    cases L with
    | nil =>
      have hd : ((joinLinesNl [l] ++ "\n").data) = l.data ++ '\n' :: [] := by
        simp [joinLinesNl, String.data_append]
      rw [hd, splitOnChar_append_sep '\n' l.data [] (hnl l (by simp))]
      rfl
    | cons l2 L2 =>
      have hd : ((joinLinesNl (l :: l2 :: L2) ++ "\n").data)
          = l.data ++ '\n' :: ((joinLinesNl (l2 :: L2) ++ "\n").data) := by
        rw [joinLinesNl]
        simp [String.data_append, List.append_assoc]
      rw [hd, splitOnChar_append_sep '\n' l.data _ (hnl l (by simp)),
        ih (by simp) (fun x hx => hnl x (by simp [hx]))]
      rfl

/-- Reading back a written line list: non-blank newline-free lines
survive a join-then-split round trip exactly. -/
theorem nonblankLines_joinNl (L : List String)
    (hnl : ∀ l ∈ L, ('\n' : Char) ∉ l.data)
    (hnb : ∀ l ∈ L, jsTrimNonempty l = true) :
    nonblankLines (joinLinesNl L ++ (if 0 < L.length then "\n" else "")) = L := by
  cases L with
  | nil =>
    simp [joinLinesNl, nonblankLines, fileLines, splitOnChar, jsTrimNonempty]
  | cons l L =>
    rw [if_pos (by simp)]
    unfold nonblankLines fileLines
    rw [splitOnChar_joinNl (l :: L) (by simp) hnl]
    have hmk : ((l :: L).map String.data).map String.mk = l :: L := by
      rw [List.map_map]
      exact List.map_id'' (fun x => rfl) (l :: L)
    rw [List.map_append, hmk]
    rw [List.filter_append]
    have h1 : List.filter jsTrimNonempty (List.map String.mk [[]]) = [] := by decide
    rw [h1, List.append_nil]
    exact List.filter_eq_self.mpr hnb
end Miriam
namespace Miriam

/-- C8 counterexample: a whitespace-only line is malformed (no parse
yields a date) and does not parse to a today entry, yet the reset
rewrite drops it: before the rewrite the file's line list contains the
line, afterwards the file is empty. -/
theorem resetDailyQuota_counterexample :
    resetDailyQuota (fun _ => none) "2026-02-05" " \n" = ""
    ∧ (fileLines " \n").contains " " = true
    ∧ ¬((fileLines "").contains " " = true) :=
  ⟨by decide, by decide, by decide⟩

/-- C8 (amended): the reset rewrite keeps, in original order, exactly
the non-blank lines that do not parse to an entry dated today —
entries of other days and malformed non-blank lines are preserved,
while whitespace-only lines are dropped as well; and the append-path
operations (`appendToFile`, the diary and task-capture writers) only
ever add bytes or append-writes after the existing content. -/
theorem resetDailyQuota_rewrite :
    (∀ (pd : String → Option String) (todayStr content : String),
        nonblankLines (resetDailyQuota pd todayStr content) =
          (nonblankLines content).filter (fun line =>
            match pd line with
            | some d => decide (d ≠ todayStr)
            | none => true))
    ∧ (∀ content line : String, content.data <+: (appendToFile content line).data)
    ∧ (∀ (stringifyEntry : DiaryEntry → String) (uuid nowIso todayStr : String)
        (params : DiaryWriteParams) (out : (Bool × DiaryEntry) × List FsWrite),
        diaryWrite stringifyEntry uuid nowIso todayStr params = .ok out →
        ∀ w ∈ out.2, ∃ path line, w = FsWrite.append path line)
    ∧ (∀ (stringifyTask : Task → String)
        (uuid now todayStr tomorrowStr memoryDir : String)
        (params : QuickCaptureParams),
        ∀ w ∈ (captureTask stringifyTask uuid now todayStr tomorrowStr
            memoryDir params).2,
          ∃ path line, w = FsWrite.append path line) := by
  refine ⟨?_, ?_, ?_, ?_⟩
  · intro pd todayStr content
    unfold resetDailyQuota
    apply nonblankLines_joinNl
    · intro l hl
      have hl1 : l ∈ nonblankLines content := (List.mem_filter.mp hl).1
      have hl2 : l ∈ fileLines content := (List.mem_filter.mp hl1).1
      unfold fileLines at hl2
      obtain ⟨p, hp, hpl⟩ := List.mem_map.mp hl2
      have : ('\n' : Char) ∉ p := splitOnChar_no_sep '\n' content.data p hp
      rw [← hpl]
      exact this
    · intro l hl
      exact (List.mem_filter.mp ((List.mem_filter.mp hl).1)).2
  · intro content line
    unfold appendToFile
    rw [String.data_append]
    exact List.prefix_append content.data line.data
  · intro stringifyEntry uuid nowIso todayStr params out h w hw
    unfold diaryWrite at h
    by_cases h1 : jsTrimNonempty params.reflections
    · rw [if_neg (by simp [h1])] at h
      by_cases h2 : params.reflections.data.length < 50
      · rw [if_pos h2] at h
        exact absurd h (by simp)
      · rw [if_neg h2] at h
        injection h with h'
        rw [← h'] at hw
        rcases List.mem_singleton.mp hw with rfl
        exact ⟨_, _, rfl⟩
    · rw [if_pos (by simp [h1])] at h
      exact absurd h (by simp)
  · intro stringifyTask uuid now todayStr tomorrowStr memoryDir params w hw
    unfold captureTask at hw
    rcases List.mem_singleton.mp hw with rfl
    exact ⟨_, _, rfl⟩

/-- Concrete run of `resetDailyQuota_rewrite`: a two-day log loses
exactly today's entry. -/
theorem resetDailyQuota_rewrite_witness :
    nonblankLines (resetDailyQuota
        (fun l => if l = "old" then some "2026-02-04" else
          if l = "new" then some "2026-02-05" else none)
        "2026-02-05" "old\nnew\njunk\n") = ["old", "junk"] := by
  rw [resetDailyQuota_rewrite.1 (fun l => if l = "old" then some "2026-02-04" else
    if l = "new" then some "2026-02-05" else none) "2026-02-05" "old\nnew\njunk\n"]
  decide

end Miriam
namespace Miriam

/-- File-system state: each path optionally holds a string content. -/
abbrev Fs : Type := String → Option String

/-- Point update of one path's content. -/
def fsSet (fs : Fs) (p c : String) : Fs :=
  fun q => if q = p then some c else fs q

/-- Atomic rename of `src` over `dst`: `dst` takes `src`'s content in
one step and `src` disappears (part_005 line 73: rename is atomic). -/
def fsRename (fs : Fs) (src dst : String) : Fs :=
  fun q => if q = dst then fs src else if q = src then none else fs q

/-- Join of path components with a separator. -/
def joinWithChar (sep : Char) : List (List Char) → List Char
  | [] => []
  | [p] => p
  | p :: p2 :: ps => p ++ sep :: joinWithChar sep (p2 :: ps)

/-- Last path segment, part_005 line 93 (`path.split("/").pop()`). -/
def basenameOf (path : String) : String :=
  String.mk ((splitOnChar '/' path.data).getLastD [])

/-- Directory of a path (node `dirname`, modelled for the slash-joined
paths used here: the components before the last slash, `.` when there
is no slash). -/
def dirnameOf (path : String) : String :=
  let comps := splitOnChar '/' path.data
  if comps.length ≤ 1 then "."
  else String.mk (joinWithChar '/' comps.dropLast)

/-- Backup destination, part_005 lines 89-94: a `.backups` directory
next to the file, holding basename plus timestamp suffix. -/
def backupPathOf (path ts : String) : String :=
  joinPath (joinPath (dirnameOf path) ".backups") (basenameOf path ++ "." ++ ts)

/-- State after the optional backup copy, part_005 lines 66-68 and
82-97: when a backup is requested and the file exists, its current
content is copied to the backup path. -/
def backupState (path : String) (backup : Bool) (ts : String) (fs0 : Fs) : Fs :=
  if backup then
    (match fs0 path with
     | some old => fsSet fs0 (backupPathOf path ts) old
     | none => fs0)
  else fs0

/-- Observable states while the temp file is being written: each entry
of the list lands in `tmpPath` in turn (modelling a possibly partial,
in-progress `writeFile`). -/
def tmpWriteStates (tmpPath : String) (fs : Fs) : List String → List Fs
  | [] => []
  | c :: cs => fsSet fs tmpPath c :: tmpWriteStates tmpPath (fsSet fs tmpPath c) cs

/-- Every state a reader can observe while `atomicWrite` (part_005
lines 55-76) runs: the initial state, the state after the optional
backup copy, the states while the temp file fills (through any
interleaving `tmpParts` of partial contents before the full `content`
lands), and the state after the final rename — the only step that
touches `path`. -/
def atomicWriteTrace (path content : String) (backup : Bool) (ts : String)
    (tmpParts : List String) (fs0 : Fs) : List Fs :=
  let tmpPath := path ++ ".tmp"
  let s1 := backupState path backup ts fs0
  let ws := tmpWriteStates tmpPath s1 (tmpParts ++ [content])
  fs0 :: s1 :: ws ++ [fsRename (ws.getLastD s1) tmpPath path]

/-- The temp path is never the destination path. -/
theorem tmpPath_ne (path : String) : ¬(path ++ ".tmp" = path) := by
  intro h
  have hl : path.data.length + 4 = path.data.length := by
    have h4 : (".tmp" : String).data.length = 4 := by decide
    have := congrArg (fun s : String => s.data.length) h
    simp only [String.data_append, List.length_append, h4] at this
    exact this
  omega

/-- The backup step never changes the destination path's content. -/
theorem backupState_path (path : String) (backup : Bool) (ts : String)
    (fs0 : Fs) (hbp : ¬(backupPathOf path ts = path)) :
    backupState path backup ts fs0 path = fs0 path := by
  unfold backupState
  by_cases hb : backup
  · rw [if_pos hb]
    cases hf : fs0 path with
    | none => exact hf
    | some old => simpa [fsSet, Ne.symm hbp] using hf
  · rw [if_neg hb]

/-- While the temp file is being written, the destination path's
content never changes. -/
theorem tmpWriteStates_path (tmpPath path : String) (hne : ¬(tmpPath = path)) :
    ∀ (cs : List String) (fs : Fs), ∀ s ∈ tmpWriteStates tmpPath fs cs,
      s path = fs path := by
  intro cs
  induction cs with
  | nil => intro fs s hs; simp [tmpWriteStates] at hs
  | cons c cs ih =>
    intro fs s hs
    rcases List.mem_cons.mp hs with rfl | hs'
    · simp [fsSet, Ne.symm hne]
    · rw [ih (fsSet fs tmpPath c) s hs']
      simp [fsSet, Ne.symm hne]

/-- After the last temp write the temp file holds the last written
part, and the destination is still untouched. -/
theorem tmpWriteStates_last (tmpPath path : String) (hne : ¬(tmpPath = path)) :
    ∀ (cs : List String) (c : String) (fs : Fs),
      ((tmpWriteStates tmpPath fs (cs ++ [c])).getLastD fs) tmpPath = some c
      ∧ ((tmpWriteStates tmpPath fs (cs ++ [c])).getLastD fs) path = fs path := by
  intro cs
  induction cs with
  | nil =>
    intro c fs
    simp [tmpWriteStates, fsSet, Ne.symm hne]
  | cons a cs ih =>
    intro c fs
    have hstep : fsSet fs tmpPath a path = fs path := by
      simp [fsSet, Ne.symm hne]
    obtain ⟨h1, h2⟩ := ih c (fsSet fs tmpPath a)
    simp only [List.cons_append, tmpWriteStates, List.getLastD_cons]
    constructor
    · exact h1
    · exact h2.trans hstep

/-- C9: throughout the atomic write the destination path holds either
the full old content or the full new content — never a truncated or
partially written state — and after the final rename it holds exactly
the new content. -/
theorem atomic_write_never_truncated (path content : String) (backup : Bool)
    (ts : String) (tmpParts : List String) (fs0 : Fs)
    (hbp : ¬(backupPathOf path ts = path)) :
    (∀ fs ∈ atomicWriteTrace path content backup ts tmpParts fs0,
        fs path = fs0 path ∨ fs path = some content)
    ∧ ((atomicWriteTrace path content backup ts tmpParts fs0).getLastD fs0) path
        = some content := by
  have htmp := tmpPath_ne path
  have hs1 : backupState path backup ts fs0 path = fs0 path :=
    backupState_path path backup ts fs0 hbp
  have hlast := tmpWriteStates_last (path ++ ".tmp") path htmp tmpParts content
    (backupState path backup ts fs0)
  have hfinal : (fsRename
      ((tmpWriteStates (path ++ ".tmp") (backupState path backup ts fs0)
          (tmpParts ++ [content])).getLastD (backupState path backup ts fs0))
      (path ++ ".tmp") path) path = some content := by
    unfold fsRename
    rw [if_pos rfl]
    exact hlast.1
  constructor
  · intro fs hfs
    unfold atomicWriteTrace at hfs
    simp only [List.mem_cons, List.mem_append, List.mem_singleton] at hfs
    rcases hfs with (rfl | rfl | hws) | rfl | hnil
    · exact Or.inl rfl
    · exact Or.inl hs1
    · exact Or.inl ((tmpWriteStates_path (path ++ ".tmp") path htmp
        (tmpParts ++ [content]) (backupState path backup ts fs0) fs hws).trans hs1)
    · exact Or.inr hfinal
    · exact absurd hnil (List.not_mem_nil fs)
  · simp only [atomicWriteTrace, List.getLastD_cons, List.getLastD_concat]
    exact hfinal

/-- Concrete run of `atomic_write_never_truncated`: two partial temp writes
never disturb the destination, and the rename lands the new content. -/
theorem atomic_write_never_truncated_witness :
    ((atomicWriteTrace "/a/b.json" "NEW" true "T" ["N", "NE"]
        (fun _ => some "OLD")).getLastD (fun _ => some "OLD")) "/a/b.json"
      = some "NEW" :=
  (atomic_write_never_truncated "/a/b.json" "NEW" true "T" ["N", "NE"]
    (fun _ => some "OLD") (by decide)).2

end Miriam
